import Mathlib

/-!
Shallow embedding of the retrieval core of the repository:
`src/backend/retrieval/embeddings.py` and `src/backend/retrieval/index.py`.

Python floats are modelled as real numbers and Python lists as Lean lists.
The pseudo-random source `random.Random` is modelled abstractly: an index
carries a drawing function (`sample` for the flat index, `shuffle` and
`uniform` for the inverted-file index) together with a natural-number
generator state that every draw advances.  Stored items are identified by
their storage position, which matches the source's `id`-based bookkeeping
whenever the stored objects are distinct.
-/

namespace RagCore

/-- Error kinds of the specification's taxonomy: the `ValueError`s about
construction parameters map to `invalidConfig`, the `ValueError`s about
vector lengths map to `dimensionMismatch`, and the `RuntimeError` raised by
an untrained inverted-file index maps to `notTrained`. -/
inductive IndexError where
  | invalidConfig
  | dimensionMismatch
  | notTrained
deriving DecidableEq, Repr

/-- Model of the source's `Vector` type alias (`List[float]`). -/
abbrev Vec := List ℝ

/-- Model of `embeddings._l2_norm`:
`math.sqrt(sum(value * value for value in vector))`. -/
noncomputable def l2_norm (vector : Vec) : ℝ :=
  Real.sqrt ((vector.map (fun value => value * value)).sum)

/-- Model of `embeddings._normalise`: the vector is returned unchanged when
its norm is zero, otherwise every component is divided by the norm. -/
noncomputable def normalise (vector : Vec) : Vec :=
  if l2_norm vector = 0 then vector
  else vector.map (fun value => value / l2_norm vector)

/-- Model of `embeddings.cosine_similarity` on equal-length operands (the
source raises on unequal lengths; every call site inside the indexes hands
it two vectors of the index dimension, so that guard is unreachable there). -/
noncomputable def cosine_similarity (vec_a vec_b : Vec) : ℝ :=
  if l2_norm vec_a = 0 ∨ l2_norm vec_b = 0 then 0
  else ((vec_a.zip vec_b).map (fun p => p.1 * p.2)).sum /
    (l2_norm vec_a * l2_norm vec_b)

/-- Model of `index.IndexedVector`: a vector plus opaque string metadata
(the Python dict is modelled as an association list). -/
structure IndexedVector where
  vector : Vec
  metadata : List (String × String)

instance : Inhabited IndexedVector := ⟨⟨[], []⟩⟩

/-- Abstract model of `random.Random.sample` over the stored items: from a
generator state and the population size, draw a list of positions into the
store and advance the state. -/
def SampleFun : Type := ℕ → ℕ → ℕ → List ℕ × ℕ

/-- Contract honoured by `random.Random.sample(population, k)` for `k ≤ n`:
the drawn positions are distinct, in range, and exactly `k` many. -/
def ValidSampler (sample : SampleFun) : Prop :=
  ∀ state n k, k ≤ n →
    (sample state n k).1.Nodup ∧ (∀ i ∈ (sample state n k).1, i < n) ∧
      (sample state n k).1.length = k

/-- Model of `index.HNSWIndex` state: dimension and `ef` from construction,
the abstract random source with its current state, and the stored items. -/
structure HNSWIndex where
  dimension : ℤ
  ef : ℕ
  sample : SampleFun
  rngState : ℕ
  items : List IndexedVector

/-- Model of `HNSWIndex.__init__`.  The body performs no validation: `ef` is
clamped through `max(ef, 1)` and the dimension is stored as given.  The
`Except` result records that a Python constructor may raise; this one never
does. -/
def HNSWIndex.init (dimension : ℤ) (ef : ℤ) (sample : SampleFun) (seed : ℕ) :
    Except IndexError HNSWIndex :=
  .ok { dimension := dimension, ef := (max ef 1).toNat, sample := sample,
        rngState := seed, items := [] }

/-- Model of `HNSWIndex.add`: a per-item loop that raises at the first item
of the wrong dimension, keeping every earlier append. -/
def HNSWIndex.add (idx : HNSWIndex) :
    List IndexedVector → HNSWIndex × Option IndexError
  | [] => (idx, none)
  | item :: rest =>
    if (item.vector.length : ℤ) ≠ idx.dimension then
      (idx, some .dimensionMismatch)
    else
      HNSWIndex.add { idx with items := idx.items ++ [item] } rest

/-- Model of the top-up loop of `HNSWIndex.search`: scan the store in
storage order, skip the already-sampled positions, append the rest one by
one and stop as soon as the candidate count has reached `ef` — the check
runs after the append, exactly as in the source. -/
def topUp (ef : ℕ) (picks : List ℕ) : List ℕ → ℕ → List ℕ
  | [], _ => []
  | p :: rest, count =>
    if p ∈ picks then topUp ef picks rest count
    else if ef ≤ count + 1 then [p]
    else p :: topUp ef picks rest (count + 1)

/-- Positions drawn by `self._rng.sample(self._items, k=min(len(self._items),
self.ef))`, together with the advanced generator state. -/
def HNSWIndex.sampleStep (idx : HNSWIndex) : List ℕ × ℕ :=
  idx.sample idx.rngState idx.items.length (min idx.items.length idx.ef)

/-- Candidate positions scored by `HNSWIndex.search`: the sampled positions,
topped up from the store in storage order whenever the sample is smaller
than the whole store. -/
def HNSWIndex.candidatePos (idx : HNSWIndex) : List ℕ :=
  let picks := idx.sampleStep.1
  if picks.length < idx.items.length then
    picks ++ topUp idx.ef picks (List.range idx.items.length) picks.length
  else picks

/-- Descending comparison used to model Python's
`scores.sort(key=lambda pair: pair[0], reverse=True)`: a stable sort on the
score component alone. -/
noncomputable def scoreDesc (a b : ℝ × List (String × String)) : Bool :=
  decide (b.1 ≤ a.1)

/-- Model of `HNSWIndex.search`: validate the query dimension, return empty
on an empty store, otherwise draw the candidates, score them, sort by score
descending (stably) and keep the first `k`.  The returned index carries the
advanced generator state — the only field the source call mutates. -/
noncomputable def HNSWIndex.search (idx : HNSWIndex) (query : Vec) (k : ℕ) :
    Except IndexError (List (ℝ × List (String × String)) × HNSWIndex) :=
  if (query.length : ℤ) ≠ idx.dimension then .error .dimensionMismatch
  else if idx.items.length = 0 then .ok ([], idx)
  else
    let scores := idx.candidatePos.map (fun i =>
      (cosine_similarity query (idx.items.getD i default).vector,
        (idx.items.getD i default).metadata))
    .ok ((scores.mergeSort scoreDesc).take k,
      { idx with rngState := idx.sampleStep.2 })

/-- Abstract model of `random.Random.shuffle` over index lists: from a
generator state and a length, produce the shuffled copy of
`list(range(n))` and advance the state. -/
def ShuffleFun : Type := ℕ → ℕ → List ℕ × ℕ

/-- Contract honoured by `random.Random.shuffle(list(range(n)))`: the result
is a permutation of `range n`. -/
def ValidShuffler (shuffle : ShuffleFun) : Prop :=
  ∀ state n, (shuffle state n).1.Perm (List.range n)

/-- Abstract model of repeated `random.Random.uniform(-1.0, 1.0)` draws:
from a generator state and a count, produce that many reals and advance the
state.  (Only the defensive centroid-padding branch consumes it.) -/
def UniformFun : Type := ℕ → ℕ → List ℝ × ℕ

/-- Model of `index.IVFIndex` state: construction parameters, the abstract
random source with its current state, the trained centroids and the
positionally paired inverted lists. -/
structure IVFIndex where
  dimension : ℤ
  n_lists : ℕ
  iterations : ℕ
  shuffle : ShuffleFun
  uniform : UniformFun
  rngState : ℕ
  centroids : List Vec
  lists : List (List IndexedVector)

/-- Model of `IVFIndex.__init__`: only `n_lists <= 0` raises
(`ValueError("n_lists must be positive")`); `iterations` is clamped through
`max(iterations, 1)` and the dimension is stored as given. -/
def IVFIndex.init (dimension : ℤ) (n_lists : ℤ) (iterations : ℤ)
    (shuffle : ShuffleFun) (uniform : UniformFun) (seed : ℕ) :
    Except IndexError IVFIndex :=
  if n_lists ≤ 0 then .error .invalidConfig
  else .ok { dimension := dimension, n_lists := n_lists.toNat,
             iterations := (max iterations 1).toNat, shuffle := shuffle,
             uniform := uniform, rngState := seed, centroids := [],
             lists := [] }

/-- Model of Python's `max(range(len(scores)), key=lambda idx: scores[idx])`
loop body: keep the current best index unless a strictly greater score
appears, so the first maximum wins. -/
noncomputable def argmaxGo : List ℝ → ℕ → ℕ → ℝ → ℕ
  | [], _, best, _ => best
  | x :: rest, i, best, bestVal =>
    if bestVal < x then argmaxGo rest (i + 1) i x
    else argmaxGo rest (i + 1) best bestVal

/-- Index of the first maximal entry of a score list (0 on the empty list,
which the source never reaches: `_assign` raises first when there are no
centroids, and each caller has already ruled that out). -/
noncomputable def argmaxIdx : List ℝ → ℕ
  | [] => 0
  | x :: rest => argmaxGo rest 1 0 x

/-- Model of `IVFIndex._assign` on a trained index: the centroid of maximal
cosine similarity, ties resolved to the lowest index. -/
noncomputable def assignTo (centroids : List Vec) (vector : Vec) : ℕ :=
  argmaxIdx (centroids.map (fun centroid => cosine_similarity vector centroid))

/-- Model of the per-vector accumulation
`for dim, value in enumerate(vector): centroid[dim] += value`: on operands
of equal length it is the pointwise sum; a shorter addend leaves the tail of
the accumulator unchanged, as in the source. -/
def addInto (acc : Vec) (v : Vec) : Vec :=
  (acc.zipWith (fun a b => a + b) v) ++ acc.drop v.length

/-- Model of the centroid recomputation for one non-empty assignment class:
sum the assigned vectors into a zero vector of the configured dimension and
divide every component by the class size. -/
noncomputable def vecMean (dimension : ℤ) (assigned : List Vec) : Vec :=
  (assigned.foldl addInto (List.replicate dimension.toNat (0 : ℝ))).map
    (fun value => value / (assigned.length : ℝ))

/-- Model of one refinement round of `IVFIndex.fit`: assign every training
vector to its nearest centroid, then replace each centroid that received at
least one vector by the mean of its class; empty classes keep their
centroid. -/
noncomputable def kmeansStep (dimension : ℤ) (data : List Vec)
    (centroids : List Vec) : List Vec :=
  (List.range centroids.length).map (fun i =>
    let assigned := data.filter (fun v => assignTo centroids v = i)
    if assigned.length = 0 then centroids.getD i [] else vecMean dimension assigned)

/-- Model of the centroid-padding loop of `_initialise_centroids`: while
fewer than `n_lists` centroids were selected, append noise vectors drawn
from the random source.  (Unreachable from `fit`, whose precondition forces
a full selection; modelled for faithfulness.) -/
noncomputable def padCentroids (uniform : UniformFun) (dimension : ℤ) :
    ℕ → List Vec → ℕ → List Vec × ℕ
  | 0, cents, state => (cents, state)
  | missing + 1, cents, state =>
    let drawn := uniform state dimension.toNat
    padCentroids uniform dimension missing (cents ++ [drawn.1]) drawn.2

/-- Model of `IVFIndex.fit`: check the data size against `n_lists`
(`ValueError("Not enough data...")` maps to `invalidConfig`), check every
vector's dimension, select the initial centroids from a shuffle of the data
indices, run exactly `iterations` refinement rounds and reset the inverted
lists to one empty bucket per centroid. -/
noncomputable def IVFIndex.fit (idx : IVFIndex) (data : List Vec) :
    Except IndexError IVFIndex :=
  if data.length < idx.n_lists then .error .invalidConfig
  else if data.any (fun v => (v.length : ℤ) ≠ idx.dimension) then
    .error .dimensionMismatch
  else
    let shuffled := idx.shuffle idx.rngState data.length
    let selected := shuffled.1.take idx.n_lists
    let initial := selected.map (fun i => data.getD i [])
    let padded := padCentroids idx.uniform idx.dimension
      (idx.n_lists - initial.length) initial shuffled.2
    let trained := (kmeansStep idx.dimension data)^[idx.iterations] padded.1
    .ok { idx with
      centroids := trained
      lists := List.replicate trained.length []
      rngState := padded.2 }

/-- Model of the per-item loop of `IVFIndex.add`: validate the dimension,
assign the item to the bucket of its nearest centroid, append; the loop
raises at the first offending item, keeping every earlier append. -/
noncomputable def IVFIndex.addLoop (idx : IVFIndex) :
    List IndexedVector → IVFIndex × Option IndexError
  | [] => (idx, none)
  | item :: rest =>
    if (item.vector.length : ℤ) ≠ idx.dimension then
      (idx, some .dimensionMismatch)
    else
      let bucket := assignTo idx.centroids item.vector
      IVFIndex.addLoop
        { idx with
          lists := idx.lists.set bucket ((idx.lists.getD bucket []) ++ [item]) }
        rest

/-- Model of `IVFIndex.add`: an untrained index (no centroids) raises
`RuntimeError` before touching any item; otherwise the per-item loop runs. -/
noncomputable def IVFIndex.add (idx : IVFIndex) (items : List IndexedVector) :
    IVFIndex × Option IndexError :=
  if idx.centroids.length = 0 then (idx, some .notTrained)
  else idx.addLoop items

/-- Model of Python's truthiness fallback
`n_probe = n_probe or min(2, len(self._centroids))`: both an omitted
`n_probe` and an explicit `0` fall back to the default. -/
def resolveNProbe (n_probe : Option ℤ) (n_centroids : ℕ) : ℤ :=
  match n_probe with
  | none => min 2 (n_centroids : ℤ)
  | some v => if v = 0 then min 2 (n_centroids : ℤ) else v

/-- Model of the Python slice `ranked[:n_probe]` for an arbitrary integer
bound: a non-negative bound keeps that many leading elements, a negative
bound drops that many trailing ones. -/
def pyTake (bound : ℤ) (l : List α) : List α :=
  if 0 ≤ bound then l.take bound.toNat
  else l.take (l.length - (-bound).toNat)

/-- Descending comparison on centroid indices used to model
`sorted(range(len(scores)), key=lambda idx: scores[idx], reverse=True)`. -/
noncomputable def centroidDesc (scores : List ℝ) (i j : ℕ) : Bool :=
  decide (scores.getD j 0 ≤ scores.getD i 0)

/-- Model of `IVFIndex.search`: validate the query dimension, return empty
when untrained, resolve `n_probe`, rank the centroids by similarity to the
query, gather the buckets of the `n_probe` best-ranked centroids, score the
gathered candidates, sort descending (stably) and keep the first `k`.  The
source call mutates nothing, so no index state is returned. -/
noncomputable def IVFIndex.search (idx : IVFIndex) (query : Vec) (k : ℕ)
    (n_probe : Option ℤ) :
    Except IndexError (List (ℝ × List (String × String))) :=
  if (query.length : ℤ) ≠ idx.dimension then .error .dimensionMismatch
  else if idx.centroids.length = 0 then .ok []
  else
    let np := resolveNProbe n_probe idx.centroids.length
    let scores := idx.centroids.map (fun c => cosine_similarity query c)
    let ranked := pyTake np
      ((List.range idx.centroids.length).mergeSort (centroidDesc scores))
    let candidates := ranked.flatMap (fun i => idx.lists.getD i [])
    let results := candidates.map (fun it =>
      (cosine_similarity query it.vector, it.metadata))
    .ok ((results.mergeSort scoreDesc).take k)

/-- Modelled from the spec: the exhaustive brute-force reference ranking —
score every stored item in storage order by cosine similarity to the query,
sort descending and keep the first `k`. -/
noncomputable def exactTopK (query : Vec) (k : ℕ) (items : List IndexedVector) :
    List (ℝ × List (String × String)) :=
  ((items.map (fun it => (cosine_similarity query it.vector,
    it.metadata))).mergeSort scoreDesc).take k

/-- Model of `embeddings.LocalEmbeddingModel` configuration.  Python's
process-salted `hash` on strings is modelled as an abstract integer-valued
function field; text is modelled as a list of characters.  The constructor
validation (`dimension <= 0` and invalid n-gram ranges raise) is carried as
hypotheses of the theorems instead of an `Except`-valued builder, because
the claims under scrutiny quantify over already-constructed models. -/
structure LocalEmbeddingModel where
  dimension : ℕ
  ngramMin : ℕ
  ngramMax : ℕ
  hash : List Char → ℤ

/-- Model of `LocalEmbeddingModel._generate_ngrams` before counting: every
window of every length of the configured inclusive range, slid over the
lowered text in source order; `range(len(text) - n + 1)` is empty whenever
`n` exceeds the text length. -/
def ngramOccurrences (lo hi : ℕ) (text : List Char) : List (List Char) :=
  (List.range' lo (hi + 1 - lo)).flatMap (fun n =>
    (List.range (text.length + 1 - n)).map (fun i => (text.drop i).take n))

/-- Model of the accumulation loop of `LocalEmbeddingModel.embed`: starting
from a zero vector of the configured dimension, add each distinct n-gram's
count (as a float) into the bucket `hash(ngram) % dimension`; colliding
n-grams accumulate into the same bucket. -/
noncomputable def rawVector (m : LocalEmbeddingModel) (text : List Char) : Vec :=
  let occs := ngramOccurrences m.ngramMin m.ngramMax (text.map Char.toLower)
  occs.dedup.foldl (fun v g =>
    let bucket := ((m.hash g) % (m.dimension : ℤ)).toNat
    v.set bucket (v.getD bucket 0 + (occs.count g : ℝ)))
    (List.replicate m.dimension (0 : ℝ))

/-- Model of `LocalEmbeddingModel.embed`: the accumulated feature vector,
L2-normalised (a no-op on the all-zero vector). -/
noncomputable def LocalEmbeddingModel.embed (m : LocalEmbeddingModel)
    (text : List Char) : Vec :=
  normalise (rawVector m text)

/-! Concrete instances of the abstract random sources, used to instantiate
the theorems below at concrete inputs.  Each one satisfies the contract of
the Python source it stands in for. -/

/-- Sampler that always draws the first positions in storage order. -/
def natSampler : SampleFun := fun state _n k => (List.range k, state + 1)

/-- Sampler whose draws depend on the generator state: a fresh generator
draws the leading positions, an advanced one draws from the rear. -/
def driftSampler : SampleFun := fun state n k =>
  ((if state = 0 then List.range n else (List.range n).reverse).take k,
    state + 1)

/-- Shuffler that leaves the index list in order. -/
def natShuffler : ShuffleFun := fun state n => (List.range n, state + 1)

/-- Noise source that only ever draws zero. -/
noncomputable def zeroUniform : UniformFun := fun state k =>
  (List.replicate k (0 : ℝ), state + 1)

theorem natSampler_valid : ValidSampler natSampler := by
  intro state n k hk
  simp only [natSampler]
  refine ⟨List.nodup_range _, ?_, List.length_range k⟩
  intro i hi
  exact lt_of_lt_of_le (List.mem_range.mp hi) hk

theorem driftSampler_valid : ValidSampler driftSampler := by
  intro state n k hk
  simp only [driftSampler]
  have hperm : (if state = 0 then List.range n
      else (List.range n).reverse).Perm (List.range n) := by
    split
    · exact List.Perm.refl _
    · exact List.reverse_perm _
  refine ⟨?_, ?_, ?_⟩
  · exact (hperm.nodup_iff.mpr (List.nodup_range _)).sublist
      (List.take_sublist _ _)
  · intro i hi
    have := hperm.mem_iff.mp (List.mem_of_mem_take hi)
    exact List.mem_range.mp this
  · simp only [List.length_take, hperm.length_eq, List.length_range]
    omega

theorem natShuffler_valid : ValidShuffler natShuffler := by
  intro state n
  exact List.Perm.refl _

/-- Trained one-list index with a single stored item, used as a concrete
input below. -/
noncomputable def probeIdx : IVFIndex :=
  { dimension := 1, n_lists := 1, iterations := 1, shuffle := natShuffler,
    uniform := zeroUniform, rngState := 0, centroids := [[1]],
    lists := [[⟨[1], [("id", "a")]⟩]] }

/-- Untrained two-list index, used as a concrete input below. -/
noncomputable def untrainedIdx : IVFIndex :=
  { dimension := 1, n_lists := 2, iterations := 1, shuffle := natShuffler,
    uniform := zeroUniform, rngState := 0, centroids := [], lists := [] }

/-- C10.  For every Clustered Inverted Index, searching with an explicit
`n_probe` of `0` is indistinguishable from omitting `n_probe`: Python's
`n_probe or min(2, len(self._centroids))` treats `0` as falsy, so the
default of `min 2 n_lists` probed buckets applies and, as witnessed by the
concrete trained index, such a search can return non-empty results. -/
theorem ivf_nprobe_zero_default :
    (∀ (idx : IVFIndex) (query : Vec) (k : ℕ),
      idx.search query k (some 0) = idx.search query k none) ∧
    probeIdx.search [1] 1 (some 0) ≠ .ok [] := by
  constructor
  · intro idx query k
    simp [IVFIndex.search, resolveNProbe]
  · have h1 : List.range 1 = [0] := rfl
    simp [IVFIndex.search, probeIdx, resolveNProbe, pyTake, h1,
      List.mergeSort_singleton]

/-- C6.  On an untrained Clustered Inverted Index (no centroids), `add`
always fails with the NotTrained error and leaves the index unchanged,
while `search` with a query of the configured dimension succeeds with an
empty result list — the asymmetry of the source. -/
theorem ivf_untrained_add_search_asymmetry (idx : IVFIndex)
    (items : List IndexedVector) (query : Vec) (k : ℕ) (n_probe : Option ℤ)
    (huntrained : idx.centroids = [])
    (hquery : (query.length : ℤ) = idx.dimension) :
    idx.add items = (idx, some .notTrained) ∧
    idx.search query k n_probe = .ok [] := by
  constructor
  · simp [IVFIndex.add, huntrained]
  · simp [IVFIndex.search, huntrained, hquery]

theorem ivf_untrained_add_search_asymmetry_witness :
    untrainedIdx.centroids = [] ∧
    ((([(1 : ℝ)] : Vec).length : ℤ) = untrainedIdx.dimension) ∧
    (untrainedIdx.add [default] = (untrainedIdx, some .notTrained) ∧
      untrainedIdx.search [1] 5 none = .ok []) :=
  ⟨rfl, by simp [untrainedIdx],
    ivf_untrained_add_search_asymmetry untrainedIdx [default] [1] 5 none rfl
      (by simp [untrainedIdx])⟩

/-- C3 counterexample.  Construction does not validate what the claim says
it does: the Sampled Flat Index accepts a negative dimension and a
non-positive `ef` (clamped to 1), and the Clustered Inverted Index accepts
a non-positive `iterations` (clamped to 1) — all three constructions
succeed instead of raising InvalidConfig. -/
theorem constructor_no_validation_cex :
    (HNSWIndex.init (-1) 0 natSampler 0).isOk = true ∧
    (IVFIndex.init 1 1 0 natShuffler zeroUniform 0).isOk = true := by
  constructor
  · rfl
  · rfl

/-- C3 as amended.  Construction of the Sampled Flat Index never fails —
the dimension is stored unvalidated and a non-positive `ef` is clamped to 1
— and construction of the Clustered Inverted Index fails with InvalidConfig
exactly when `n_lists` is non-positive, while a non-positive `iterations`
is clamped to 1 and the dimension again goes unvalidated. -/
theorem constructor_checks_amended (d ef nl it : ℤ) (sf : SampleFun)
    (sh : ShuffleFun) (un : UniformFun) (seed : ℕ) :
    HNSWIndex.init d ef sf seed =
      .ok { dimension := d, ef := (max ef 1).toNat, sample := sf,
            rngState := seed, items := [] } ∧
    IVFIndex.init d nl it sh un seed =
      (if nl ≤ 0 then .error .invalidConfig
       else .ok { dimension := d, n_lists := nl.toNat,
                  iterations := (max it 1).toNat, shuffle := sh,
                  uniform := un, rngState := seed, centroids := [],
                  lists := [] }) :=
  ⟨rfl, rfl⟩

/-- Characterisation of the top-up loop once the candidate count has already
reached `ef - 1`: it appends exactly the first un-sampled position (the size
check runs after the append). -/
theorem topUp_take_one (ef : ℕ) (picks : List ℕ) :
    ∀ (l : List ℕ) (count : ℕ), ef ≤ count + 1 →
      topUp ef picks l count = (l.filter (fun p => p ∉ picks)).take 1 := by
  intro l
  induction l with
  | nil => intro count _; simp [topUp]
  | cons p rest ih =>
    intro count h
    by_cases hp : p ∈ picks
    · simp [topUp, hp, ih count h]
    · simp [topUp, hp, h]

/-- Size of the initial sample draw of `HNSWIndex.search`. -/
theorem sampleStep_length (idx : HNSWIndex) (hs : ValidSampler idx.sample) :
    idx.sampleStep.1.length = min idx.items.length idx.ef :=
  (hs idx.rngState idx.items.length _ (Nat.min_le_left _ _)).2.2

/-- C4 as amended.  The candidate subset drawn by the Sampled Flat Index's
search is the seeded sample of size `min(|store|, ef)`, and when `ef <
|store|` it is topped up with exactly one extra item — the first un-sampled
item in storage order — because the source checks the `ef` bound only after
appending; the total candidate count is therefore `min(ef + 1, |store|)`,
not `min(ef, |store|)`. -/
theorem hnsw_candidate_set_amended (idx : HNSWIndex)
    (hs : ValidSampler idx.sample) :
    idx.sampleStep.1.length = min idx.items.length idx.ef ∧
    idx.candidatePos =
      (if idx.items.length ≤ idx.ef then idx.sampleStep.1
       else idx.sampleStep.1 ++
         ((List.range idx.items.length).filter
           (fun p => p ∉ idx.sampleStep.1)).take 1) ∧
    idx.candidatePos.length = min (idx.ef + 1) idx.items.length := by
  have hlen := sampleStep_length idx hs
  refine ⟨hlen, ?_⟩
  by_cases hle : idx.items.length ≤ idx.ef
  · have hmin : min idx.items.length idx.ef = idx.items.length :=
      Nat.min_eq_left hle
    have hnot : ¬ idx.sampleStep.1.length < idx.items.length := by omega
    constructor
    · simp [HNSWIndex.candidatePos, hnot, hle]
    · rw [HNSWIndex.candidatePos]
      simp only [hnot, if_neg, ite_false]
      omega
  · have hgt : idx.ef < idx.items.length := Nat.lt_of_not_le hle
    have hmin : min idx.items.length idx.ef = idx.ef := by omega
    have hlt : idx.sampleStep.1.length < idx.items.length := by omega
    have htu : topUp idx.ef idx.sampleStep.1
        (List.range idx.items.length) idx.sampleStep.1.length =
        ((List.range idx.items.length).filter
          (fun p => p ∉ idx.sampleStep.1)).take 1 :=
      topUp_take_one _ _ _ _ (by omega)
    have hfil : ((List.range idx.items.length).filter
        (fun p => p ∉ idx.sampleStep.1)) ≠ [] := by
      intro hnil
      have hsub : List.range idx.items.length ⊆ idx.sampleStep.1 := by
        intro p hp
        by_contra hpn
        have hmem : p ∈ (List.range idx.items.length).filter
            (fun p => p ∉ idx.sampleStep.1) := by
          simp [List.mem_filter, hp, hpn]
        rw [hnil] at hmem
        simp at hmem
      have : idx.items.length ≤ idx.sampleStep.1.length := by
        simpa using (List.subperm_of_subset (List.nodup_range _) hsub).length_le
      omega
    have hfl : (((List.range idx.items.length).filter
        (fun p => p ∉ idx.sampleStep.1)).take 1).length = 1 := by
      rw [List.length_take]
      have : 0 < ((List.range idx.items.length).filter
          (fun p => p ∉ idx.sampleStep.1)).length :=
        List.length_pos.mpr hfil
      omega
    constructor
    · simp [HNSWIndex.candidatePos, hlt, hle, htu]
    · rw [HNSWIndex.candidatePos]
      simp only [hlt, if_pos, ite_true, List.length_append, htu, hfl]
      omega

/-- Concrete three-item index with `ef = 1`, used as a concrete input
below. -/
noncomputable def candIdx : HNSWIndex :=
  { dimension := 1, ef := 1, sample := natSampler, rngState := 0,
    items := [⟨[1], [("id", "a")]⟩, ⟨[1], [("id", "b")]⟩,
      ⟨[1], [("id", "c")]⟩] }

theorem hnsw_candidate_set_amended_witness :
    ValidSampler candIdx.sample ∧
    (candIdx.sampleStep.1.length = min candIdx.items.length candIdx.ef ∧
      candIdx.candidatePos =
        (if candIdx.items.length ≤ candIdx.ef then candIdx.sampleStep.1
         else candIdx.sampleStep.1 ++
           ((List.range candIdx.items.length).filter
             (fun p => p ∉ candIdx.sampleStep.1)).take 1) ∧
      candIdx.candidatePos.length = min (candIdx.ef + 1) candIdx.items.length) :=
  ⟨natSampler_valid, hnsw_candidate_set_amended candIdx natSampler_valid⟩

/-- C4 counterexample.  On a store of three items with `ef = 1` and a valid
sampler, the search scores two candidates, not `min(|store|, ef) = 1`: the
top-up loop appends one item beyond the already-full sample because the
bound is checked only after the append. -/
theorem hnsw_candidate_size_cex :
    ValidSampler candIdx.sample ∧
    candIdx.candidatePos.length = 2 ∧
    min candIdx.items.length candIdx.ef = 1 :=
  ⟨natSampler_valid, rfl, rfl⟩

/-- Position of the first item whose vector length disagrees with the
configured dimension, if any. -/
def firstBadIdx (dimension : ℤ) : List IndexedVector → Option ℕ
  | [] => none
  | item :: rest =>
    if (item.vector.length : ℤ) ≠ dimension then some 0
    else (firstBadIdx dimension rest).map (· + 1)

/-- Every item strictly before the first offending one has the configured
dimension. -/
theorem firstBadIdx_take (dimension : ℤ) :
    ∀ (items : List IndexedVector) (j : ℕ),
      firstBadIdx dimension items = some j →
      firstBadIdx dimension (items.take j) = none := by
  intro items
  induction items with
  | nil => intro j h; simp [firstBadIdx] at h
  | cons item rest ih =>
    intro j h
    by_cases hbad : (item.vector.length : ℤ) ≠ dimension
    · simp only [firstBadIdx, if_pos hbad] at h
      have hj : j = 0 := (Option.some_inj.mp h).symm
      subst hj
      simp [firstBadIdx]
    · simp only [firstBadIdx, if_neg hbad] at h
      rcases hfind : firstBadIdx dimension rest with _ | m
      · rw [hfind] at h; simp at h
      · rw [hfind] at h
        simp only [Option.map_some'] at h
        have hj : j = m + 1 := (Option.some_inj.mp h).symm
        subst hj
        simp only [List.take_succ_cons, firstBadIdx, if_neg hbad,
          ih m hfind, Option.map_none']

/-- Full characterisation of `HNSWIndex.add`: with no offending item every
item is appended in order; with a first offending item at position `j`
exactly the items before position `j` are appended and the
dimension-mismatch error is raised. -/
theorem HNSWIndex.add_spec :
    ∀ (items : List IndexedVector) (idx : HNSWIndex),
      (firstBadIdx idx.dimension items = none →
        idx.add items = ({ idx with items := idx.items ++ items }, none)) ∧
      (∀ j, firstBadIdx idx.dimension items = some j →
        idx.add items =
          ({ idx with items := idx.items ++ items.take j },
            some .dimensionMismatch)) := by
  intro items
  induction items with
  | nil =>
    intro idx
    constructor
    · intro _
      simp [HNSWIndex.add]
    · intro j h
      simp [firstBadIdx] at h
  | cons item rest ih =>
    intro idx
    constructor
    · intro h
      by_cases hbad : (item.vector.length : ℤ) ≠ idx.dimension
      · simp [firstBadIdx, if_pos hbad] at h
      · simp only [firstBadIdx, if_neg hbad] at h
        have hrest : firstBadIdx idx.dimension rest = none := by
          rcases hfind : firstBadIdx idx.dimension rest with _ | m
          · rfl
          · rw [hfind] at h; simp at h
        have hstep := (ih { idx with items := idx.items ++ [item] }).1 hrest
        simp only [HNSWIndex.add, if_neg hbad]
        rw [hstep]
        have hap : (idx.items ++ [item]) ++ rest = idx.items ++ item :: rest := by
          simp
        simp only [hap]
    · intro j h
      by_cases hbad : (item.vector.length : ℤ) ≠ idx.dimension
      · simp only [firstBadIdx, if_pos hbad] at h
        have hj : j = 0 := (Option.some_inj.mp h).symm
        subst hj
        simp [HNSWIndex.add, hbad]
      · simp only [firstBadIdx, if_neg hbad] at h
        rcases hfind : firstBadIdx idx.dimension rest with _ | m
        · rw [hfind] at h; simp at h
        · rw [hfind] at h
          simp only [Option.map_some'] at h
          have hj : j = m + 1 := (Option.some_inj.mp h).symm
          subst hj
          have hstep := (ih { idx with items := idx.items ++ [item] }).2 m hfind
          simp only [HNSWIndex.add, if_neg hbad, List.take_succ_cons]
          rw [hstep]
          have hap : (idx.items ++ [item]) ++ rest.take m =
              idx.items ++ item :: rest.take m := by
            simp
          simp only [hap]

/-- The per-item loop of `IVFIndex.add` never touches the centroids and
never changes the number of buckets, whatever the outcome. -/
theorem IVFIndex.addLoop_frame :
    ∀ (items : List IndexedVector) (idx : IVFIndex),
      ((idx.addLoop items).1).centroids = idx.centroids ∧
      ((idx.addLoop items).1).lists.length = idx.lists.length ∧
      ((idx.addLoop items).1).dimension = idx.dimension := by
  intro items
  induction items with
  | nil => intro idx; simp [IVFIndex.addLoop]
  | cons item rest ih =>
    intro idx
    by_cases hbad : (item.vector.length : ℤ) ≠ idx.dimension
    · simp [IVFIndex.addLoop, hbad]
    · simp only [IVFIndex.addLoop, if_neg hbad]
      have hstep := ih { idx with
        lists := idx.lists.set (assignTo idx.centroids item.vector)
          ((idx.lists.getD (assignTo idx.centroids item.vector) []) ++ [item]) }
      simpa using hstep

/-- Error behaviour of the per-item loop of `IVFIndex.add`: it succeeds
when every item has the configured dimension, and raises at the first
offending item having committed exactly the items before it. -/
theorem IVFIndex.addLoop_error_spec :
    ∀ (items : List IndexedVector) (idx : IVFIndex),
      (firstBadIdx idx.dimension items = none → (idx.addLoop items).2 = none) ∧
      (∀ j, firstBadIdx idx.dimension items = some j →
        idx.addLoop items =
          ((idx.addLoop (items.take j)).1, some .dimensionMismatch)) := by
  intro items
  induction items with
  | nil =>
    intro idx
    constructor
    · intro _
      simp [IVFIndex.addLoop]
    · intro j h
      simp [firstBadIdx] at h
  | cons item rest ih =>
    intro idx
    constructor
    · intro h
      by_cases hbad : (item.vector.length : ℤ) ≠ idx.dimension
      · simp [firstBadIdx, if_pos hbad] at h
      · simp only [firstBadIdx, if_neg hbad] at h
        have hrest : firstBadIdx idx.dimension rest = none := by
          rcases hfind : firstBadIdx idx.dimension rest with _ | m
          · rfl
          · rw [hfind] at h; simp at h
        simp only [IVFIndex.addLoop, if_neg hbad]
        exact (ih _).1 hrest
    · intro j h
      by_cases hbad : (item.vector.length : ℤ) ≠ idx.dimension
      · simp only [firstBadIdx, if_pos hbad] at h
        have hj : j = 0 := (Option.some_inj.mp h).symm
        subst hj
        simp [IVFIndex.addLoop, hbad]
      · simp only [firstBadIdx, if_neg hbad] at h
        rcases hfind : firstBadIdx idx.dimension rest with _ | m
        · rw [hfind] at h; simp at h
        · rw [hfind] at h
          simp only [Option.map_some'] at h
          have hj : j = m + 1 := (Option.some_inj.mp h).symm
          subst hj
          have hstep := (ih { idx with
            lists := idx.lists.set (assignTo idx.centroids item.vector)
              ((idx.lists.getD (assignTo idx.centroids item.vector) [])
                ++ [item]) }).2 m hfind
          simp only [IVFIndex.addLoop, if_neg hbad, List.take_succ_cons]
          exact hstep

/-- C8.  For either index variant, an `add` batch holding an item of the
wrong dimension fails with DimensionMismatch, having committed exactly the
valid items before the first offending one — the offending item itself is
never committed — and a `search` with a query of the wrong dimension fails
with DimensionMismatch before touching any state. -/
theorem dimension_mismatch_rejection (h : HNSWIndex) (i : IVFIndex)
    (items : List IndexedVector) (j : ℕ) (q : Vec) (k : ℕ) (np : Option ℤ)
    (hjh : firstBadIdx h.dimension items = some j)
    (hji : firstBadIdx i.dimension items = some j)
    (htr : i.centroids ≠ [])
    (hqh : (q.length : ℤ) ≠ h.dimension)
    (hqi : (q.length : ℤ) ≠ i.dimension) :
    (h.add items).2 = some .dimensionMismatch ∧
    (h.add items).1.items = h.items ++ items.take j ∧
    (h.add (items.take j)).2 = none ∧
    (i.add items).2 = some .dimensionMismatch ∧
    (i.add items).1 = (i.add (items.take j)).1 ∧
    (i.add (items.take j)).2 = none ∧
    h.search q k = .error .dimensionMismatch ∧
    i.search q k np = .error .dimensionMismatch := by
  have hcent : ¬ i.centroids.length = 0 := by
    simpa [List.length_eq_zero] using htr
  have hh := (HNSWIndex.add_spec items h).2 j hjh
  have hhg := (HNSWIndex.add_spec (items.take j) h).1
    (firstBadIdx_take h.dimension items j hjh)
  have hi := (IVFIndex.addLoop_error_spec items i).2 j hji
  have hig := (IVFIndex.addLoop_error_spec (items.take j) i).1
    (firstBadIdx_take i.dimension items j hji)
  refine ⟨?_, ?_, ?_, ?_, ?_, ?_, ?_, ?_⟩
  · rw [hh]
  · rw [hh]
  · rw [hhg]
  · simp only [IVFIndex.add, if_neg hcent]
    rw [hi]
  · simp only [IVFIndex.add, if_neg hcent]
    rw [hi]
  · simp only [IVFIndex.add, if_neg hcent]
    exact hig
  · simp [HNSWIndex.search, hqh]
  · simp [IVFIndex.search, hqi]

theorem dimension_mismatch_rejection_witness :
    firstBadIdx candIdx.dimension [(⟨[1], []⟩ : IndexedVector), ⟨[1, 1], []⟩]
      = some 1 ∧
    firstBadIdx probeIdx.dimension [(⟨[1], []⟩ : IndexedVector), ⟨[1, 1], []⟩]
      = some 1 ∧
    probeIdx.centroids ≠ [] ∧
    ((([(1 : ℝ), 1] : Vec).length : ℤ) ≠ candIdx.dimension) ∧
    ((([(1 : ℝ), 1] : Vec).length : ℤ) ≠ probeIdx.dimension) ∧
    ((candIdx.add [⟨[1], []⟩, ⟨[1, 1], []⟩]).2 = some .dimensionMismatch ∧
      (candIdx.add [⟨[1], []⟩, ⟨[1, 1], []⟩]).1.items =
        candIdx.items ++ ([(⟨[1], []⟩ : IndexedVector), ⟨[1, 1], []⟩]).take 1 ∧
      (candIdx.add (([(⟨[1], []⟩ : IndexedVector), ⟨[1, 1], []⟩]).take 1)).2
        = none ∧
      (probeIdx.add [⟨[1], []⟩, ⟨[1, 1], []⟩]).2 = some .dimensionMismatch ∧
      (probeIdx.add [⟨[1], []⟩, ⟨[1, 1], []⟩]).1 =
        (probeIdx.add (([(⟨[1], []⟩ : IndexedVector), ⟨[1, 1], []⟩]).take 1)).1 ∧
      (probeIdx.add (([(⟨[1], []⟩ : IndexedVector), ⟨[1, 1], []⟩]).take 1)).2
        = none ∧
      candIdx.search [1, 1] 5 = .error .dimensionMismatch ∧
      probeIdx.search [1, 1] 5 none = .error .dimensionMismatch) := by
  refine ⟨?_, ?_, ?_, ?_, ?_, ?_⟩
  · simp [firstBadIdx, candIdx]
  · simp [firstBadIdx, probeIdx]
  · simp [probeIdx]
  · simp [candIdx]
  · simp [probeIdx]
  · exact dimension_mismatch_rejection candIdx probeIdx
      [⟨[1], []⟩, ⟨[1, 1], []⟩] 1 [1, 1] 5 none
      (by simp [firstBadIdx, candIdx]) (by simp [firstBadIdx, probeIdx])
      (by simp [probeIdx]) (by simp [candIdx]) (by simp [probeIdx])

/-- Keys pairwise distinct along a list force key-equal members to be the
same member. -/
theorem pairwise_key_inj {α β : Type _} {f : α → β} :
    ∀ {l : List α}, (l.map f).Pairwise (· ≠ ·) →
      ∀ a ∈ l, ∀ b ∈ l, f a = f b → a = b := by
  intro l
  induction l with
  | nil => intro _ a ha; simp at ha
  | cons x t ih =>
    intro hp a ha b hb hfe
    simp only [List.map_cons, List.pairwise_cons] at hp
    rcases List.mem_cons.mp ha with rfl | hat
    · rcases List.mem_cons.mp hb with rfl | hbt
      · rfl
      · exact absurd hfe (hp.1 (f b) (List.mem_map_of_mem f hbt))
    · rcases List.mem_cons.mp hb with rfl | hbt
      · exact absurd hfe.symm (hp.1 (f a) (List.mem_map_of_mem f hat))
      · exact ih hp.2 a hat b hbt hfe

/-- Two sorted lists that are permutations of each other, with a comparison
antisymmetric on their members, are equal. -/
theorem eq_of_perm_of_sorted_bool {α : Type _} {le : α → α → Bool} :
    ∀ {l₁ l₂ : List α}, l₁.Perm l₂ →
      l₁.Pairwise (fun a b => le a b = true) →
      l₂.Pairwise (fun a b => le a b = true) →
      (∀ a ∈ l₁, ∀ b ∈ l₁, le a b = true → le b a = true → a = b) →
      l₁ = l₂ := by
  intro l₁
  induction l₁ with
  | nil =>
    intro l₂ hp _ _ _
    exact hp.nil_eq
  | cons a t ih =>
    intro l₂ hp hs₁ hs₂ hanti
    rcases l₂ with _ | ⟨b, t₂⟩
    · exact absurd hp.eq_nil (List.cons_ne_nil a t)
    · by_cases hab : a = b
      · subst hab
        have ht : t.Perm t₂ := hp.cons_inv
        have hrec : t = t₂ :=
          ih ht (List.pairwise_cons.mp hs₁).2 (List.pairwise_cons.mp hs₂).2
            (fun x hx y hy hxy hyx =>
              hanti x (List.mem_cons_of_mem a hx) y
                (List.mem_cons_of_mem a hy) hxy hyx)
        rw [hrec]
      · have hbmem : b ∈ a :: t := hp.mem_iff.mpr (List.mem_cons_self b t₂)
        have hbt : b ∈ t := by
          rcases List.mem_cons.mp hbmem with hba | hbt
          · exact absurd hba.symm hab
          · exact hbt
        have hat₂ : a ∈ t₂ := by
          have hamem : a ∈ b :: t₂ := hp.mem_iff.mp (List.mem_cons_self a t)
          rcases List.mem_cons.mp hamem with hba | hat₂
          · exact absurd hba hab
          · exact hat₂
        have h₁ : le a b = true := (List.pairwise_cons.mp hs₁).1 b hbt
        have h₂ : le b a = true := (List.pairwise_cons.mp hs₂).1 a hat₂
        exact absurd (hanti a (List.mem_cons_self a t) b hbmem h₁ h₂) hab

theorem scoreDesc_trans : ∀ (a b c : ℝ × List (String × String)),
    scoreDesc a b → scoreDesc b c → scoreDesc a c := by
  intro a b c hab hbc
  simp only [scoreDesc, decide_eq_true_eq] at hab hbc ⊢
  exact le_trans hbc hab

theorem scoreDesc_total : ∀ (a b : ℝ × List (String × String)),
    scoreDesc a b || scoreDesc b a := by
  intro a b
  simp only [scoreDesc]
  rcases le_total a.1 b.1 with h | h
  · simp [h]
  · simp [h]

/-- Scoring map shared by both searches. -/
noncomputable def scoreOf (query : Vec) (it : IndexedVector) :
    ℝ × List (String × String) :=
  (cosine_similarity query it.vector, it.metadata)

/-- With pairwise-distinct scores, sorting the scored candidates is
invariant under permuting the candidates. -/
theorem scored_mergeSort_eq (query : Vec) {cand items : List IndexedVector}
    (hperm : cand.Perm items)
    (hdist : (items.map
      (fun it => cosine_similarity query it.vector)).Pairwise (· ≠ ·)) :
    (cand.map (scoreOf query)).mergeSort scoreDesc =
      (items.map (scoreOf query)).mergeSort scoreDesc := by
  have hpm : (cand.map (scoreOf query)).Perm (items.map (scoreOf query)) :=
    hperm.map _
  have hp : ((cand.map (scoreOf query)).mergeSort scoreDesc).Perm
      ((items.map (scoreOf query)).mergeSort scoreDesc) :=
    ((List.mergeSort_perm _ _).trans hpm).trans (List.mergeSort_perm _ _).symm
  have hs₁ := List.sorted_mergeSort scoreDesc_trans scoreDesc_total
    (cand.map (scoreOf query))
  have hs₂ := List.sorted_mergeSort scoreDesc_trans scoreDesc_total
    (items.map (scoreOf query))
  have hfst : (((items.map (scoreOf query)).map Prod.fst)).Pairwise (· ≠ ·) := by
    rw [List.map_map]
    exact hdist
  have hanti : ∀ x ∈ (cand.map (scoreOf query)).mergeSort scoreDesc,
      ∀ y ∈ (cand.map (scoreOf query)).mergeSort scoreDesc,
      scoreDesc x y = true → scoreDesc y x = true → x = y := by
    intro x hx y hy hxy hyx
    have hx2 : x ∈ items.map (scoreOf query) :=
      hpm.mem_iff.mp (List.mem_mergeSort.mp hx)
    have hy2 : y ∈ items.map (scoreOf query) :=
      hpm.mem_iff.mp (List.mem_mergeSort.mp hy)
    simp only [scoreDesc, decide_eq_true_eq] at hxy hyx
    exact pairwise_key_inj hfst x hx2 y hy2 (le_antisymm hyx hxy)
  exact eq_of_perm_of_sorted_bool hp hs₁ hs₂ hanti

/-- Reading every position of a list back off, in order, returns the
list. -/
theorem map_getD_range {α : Type _} (d : α) :
    ∀ (l : List α), (List.range l.length).map (fun i => l.getD i d) = l := by
  intro l
  induction l with
  | nil => simp
  | cons x t ih =>
    rw [List.length_cons, List.range_succ_eq_map, List.map_cons, List.map_map]
    have htail : List.map ((fun i => (x :: t).getD i d) ∘ Nat.succ)
        (List.range t.length)
        = List.map (fun i => t.getD i d) (List.range t.length) :=
      List.map_congr_left (fun i _ => rfl)
    rw [htail, ih]
    rfl

/-- A duplicate-free list of `n` in-range positions is a permutation of
`range n`. -/
theorem picks_perm_range {picks : List ℕ} {n : ℕ}
    (hnd : picks.Nodup) (hm : ∀ i ∈ picks, i < n) (hl : picks.length = n) :
    picks.Perm (List.range n) := by
  have hsub : picks ⊆ List.range n := fun i hi => List.mem_range.mpr (hm i hi)
  exact (List.subperm_of_subset hnd hsub).perm_of_length_le (by simp [hl])

/-- Full characterisation of `HNSWIndex.search` when `ef` covers the whole
store: for every valid sampler and every generator state the result is the
brute-force top-`k`, and only the generator state advances. -/
theorem HNSWIndex.search_exact (idx : HNSWIndex) (query : Vec) (k : ℕ)
    (hs : ValidSampler idx.sample)
    (hq : (query.length : ℤ) = idx.dimension)
    (hef : idx.items.length ≤ idx.ef)
    (hdist : (idx.items.map
      (fun it => cosine_similarity query it.vector)).Pairwise (· ≠ ·)) :
    idx.search query k = .ok (exactTopK query k idx.items,
      if idx.items.length = 0 then idx
      else { idx with rngState := idx.sampleStep.2 }) := by
  have hqe : ¬ ((query.length : ℤ) ≠ idx.dimension) := by simpa using hq
  by_cases hempty : idx.items.length = 0
  · have hnil : idx.items = [] := List.length_eq_zero.mp hempty
    simp [HNSWIndex.search, hqe, hempty, exactTopK, hnil]
  · have hlen := sampleStep_length idx hs
    have hmin : min idx.items.length idx.ef = idx.items.length :=
      Nat.min_eq_left hef
    have hnotlt : ¬ idx.sampleStep.1.length < idx.items.length := by omega
    have hcand : idx.candidatePos = idx.sampleStep.1 := by
      simp [HNSWIndex.candidatePos, hnotlt]
    have hvalid := hs idx.rngState idx.items.length
      (min idx.items.length idx.ef) (Nat.min_le_left _ _)
    have hperm : idx.sampleStep.1.Perm (List.range idx.items.length) :=
      picks_perm_range hvalid.1 hvalid.2.1 (by omega)
    have hmapped : (idx.candidatePos.map
        (fun i => idx.items.getD i default)).Perm idx.items := by
      rw [hcand]
      have hm := hperm.map (fun i => idx.items.getD i default)
      rwa [map_getD_range] at hm
    have hsplit : idx.candidatePos.map (fun i =>
        (cosine_similarity query (idx.items.getD i default).vector,
          (idx.items.getD i default).metadata)) =
        (idx.candidatePos.map (fun i => idx.items.getD i default)).map
          (scoreOf query) := by
      rw [List.map_map]
      rfl
    simp only [HNSWIndex.search, hqe, ite_false, if_neg, hempty]
    rw [hsplit, scored_mergeSort_eq query hmapped hdist]
    rfl

/-- C1.  With `ef` at least the number of stored items, every search on the
Sampled Flat Index returns exactly the brute-force top-`k` of the stored
items by cosine similarity (descending), for every valid sampler and every
generator state — hence independently of the construction seed — provided
the stored items' scores are pairwise distinct (ties aside). -/
theorem hnsw_full_ef_exact_topk (idx : HNSWIndex) (query : Vec) (k : ℕ)
    (hs : ValidSampler idx.sample)
    (hq : (query.length : ℤ) = idx.dimension)
    (hef : idx.items.length ≤ idx.ef)
    (hdist : (idx.items.map
      (fun it => cosine_similarity query it.vector)).Pairwise (· ≠ ·)) :
    (idx.search query k).map Prod.fst = .ok (exactTopK query k idx.items) := by
  rw [HNSWIndex.search_exact idx query k hs hq hef hdist]
  rfl

/-- Single-item index with a large `ef`, used as a concrete input below. -/
noncomputable def exactIdx : HNSWIndex :=
  { dimension := 1, ef := 4, sample := natSampler, rngState := 0,
    items := [⟨[1], [("id", "a")]⟩] }

theorem hnsw_full_ef_exact_topk_witness :
    ValidSampler exactIdx.sample ∧
    ((([(1 : ℝ)] : Vec).length : ℤ) = exactIdx.dimension) ∧
    exactIdx.items.length ≤ exactIdx.ef ∧
    (exactIdx.items.map
      (fun it => cosine_similarity [1] it.vector)).Pairwise (· ≠ ·) ∧
    (exactIdx.search [1] 2).map Prod.fst = .ok (exactTopK [1] 2 exactIdx.items) :=
  ⟨natSampler_valid, by simp [exactIdx], by simp [exactIdx],
    by simp [exactIdx],
    hnsw_full_ef_exact_topk exactIdx [1] 2 natSampler_valid
      (by simp [exactIdx]) (by simp [exactIdx]) (by simp [exactIdx])⟩

/-- C9 as amended.  Two consecutive searches with the same query and `k` on
an unchanged Sampled Flat Index return identical result lists whenever `ef`
covers the whole store (ties aside); in general the shared pseudo-random
source advances with every call, so consecutive searches may score
different candidate subsets and return different lists (see the
counterexample). -/
theorem hnsw_consecutive_search_amended (idx : HNSWIndex) (query : Vec)
    (k : ℕ)
    (hs : ValidSampler idx.sample)
    (hq : (query.length : ℤ) = idx.dimension)
    (hef : idx.items.length ≤ idx.ef)
    (hdist : (idx.items.map
      (fun it => cosine_similarity query it.vector)).Pairwise (· ≠ ·)) :
    ∃ idx₁ idx₂,
      idx.search query k = .ok (exactTopK query k idx.items, idx₁) ∧
      idx₁.search query k = .ok (exactTopK query k idx.items, idx₂) := by
  have h1 := HNSWIndex.search_exact idx query k hs hq hef hdist
  by_cases hempty : idx.items.length = 0
  · rw [if_pos hempty] at h1
    exact ⟨idx, idx, h1, h1⟩
  · rw [if_neg hempty] at h1
    have h2 := HNSWIndex.search_exact { idx with rngState := idx.sampleStep.2 }
      query k hs hq hef hdist
    rw [if_neg hempty] at h2
    exact ⟨_, _, h1, h2⟩

theorem hnsw_consecutive_search_amended_witness :
    ValidSampler exactIdx.sample ∧
    ((([(1 : ℝ)] : Vec).length : ℤ) = exactIdx.dimension) ∧
    exactIdx.items.length ≤ exactIdx.ef ∧
    (exactIdx.items.map
      (fun it => cosine_similarity [1] it.vector)).Pairwise (· ≠ ·) ∧
    (∃ idx₁ idx₂,
      exactIdx.search [1] 3 = .ok (exactTopK [1] 3 exactIdx.items, idx₁) ∧
      idx₁.search [1] 3 = .ok (exactTopK [1] 3 exactIdx.items, idx₂)) :=
  ⟨natSampler_valid, by simp [exactIdx], by simp [exactIdx],
    by simp [exactIdx],
    hnsw_consecutive_search_amended exactIdx [1] 3 natSampler_valid
      (by simp [exactIdx]) (by simp [exactIdx]) (by simp [exactIdx])⟩

/-- Three-item index with `ef = 1` whose sampler draws differently once the
generator state has advanced, used as a concrete input below. -/
noncomputable def c9Idx : HNSWIndex :=
  { dimension := 1, ef := 1, sample := driftSampler, rngState := 0,
    items := [⟨[1], [("id", "a")]⟩, ⟨[1], [("id", "b")]⟩,
      ⟨[1], [("id", "c")]⟩] }

/-- Result and successor index of the first search call on `c9Idx`. -/
noncomputable def c9Run1 : List (ℝ × List (String × String)) × HNSWIndex :=
  ((c9Idx.search [1] 3).toOption).getD ([], c9Idx)

/-- Result and successor index of the second, consecutive search call. -/
noncomputable def c9Run2 : List (ℝ × List (String × String)) × HNSWIndex :=
  ((c9Run1.2.search [1] 3).toOption).getD ([], c9Run1.2)

/-- C9 counterexample.  On a three-item store with `ef = 1` and a valid
sampler, two consecutive searches with the same query and `k` both succeed
yet return different result lists: the first call's candidates are items
0 and 1, the second call's — after the generator state advanced — are items
2 and 0, so only the first result mentions item 1's metadata. -/
theorem hnsw_consecutive_search_cex :
    ValidSampler c9Idx.sample ∧
    (c9Idx.search [1] 3).isOk = true ∧
    (c9Run1.2.search [1] 3).isOk = true ∧
    c9Run1.1 ≠ c9Run2.1 := by
  have e1 : c9Idx.search [1] 3 =
      .ok ((([((cosine_similarity [1] [1] : ℝ), [("id", "a")]),
        (cosine_similarity [1] [1], [("id", "b")])]).mergeSort
          scoreDesc).take 3,
        { c9Idx with rngState := 1 }) := rfl
  have e2 : c9Run1.2.search [1] 3 =
      .ok ((([((cosine_similarity [1] [1] : ℝ), [("id", "c")]),
        (cosine_similarity [1] [1], [("id", "a")])]).mergeSort
          scoreDesc).take 3,
        { c9Idx with rngState := 2 }) := rfl
  have hr1 : c9Run1.1 = (([((cosine_similarity [1] [1] : ℝ), [("id", "a")]),
      (cosine_similarity [1] [1], [("id", "b")])]).mergeSort
        scoreDesc).take 3 := by
    simp only [c9Run1, e1, Except.toOption]
    rfl
  have hr2 : c9Run2.1 = (([((cosine_similarity [1] [1] : ℝ), [("id", "c")]),
      (cosine_similarity [1] [1], [("id", "a")])]).mergeSort
        scoreDesc).take 3 := by
    simp only [c9Run2, e2, Except.toOption]
    rfl
  refine ⟨driftSampler_valid, by rw [e1]; rfl, by rw [e2]; rfl, ?_⟩
  intro heq
  have hmem1 : ([("id", "b")] : List (String × String)) ∈
      c9Run1.1.map Prod.snd := by
    rw [hr1, List.take_of_length_le (by simp)]
    exact List.mem_map.mpr
      ⟨(cosine_similarity [1] [1], [("id", "b")]),
        List.mem_mergeSort.mpr (by simp), rfl⟩
  have hmem2 : ([("id", "b")] : List (String × String)) ∉
      c9Run2.1.map Prod.snd := by
    rw [hr2, List.take_of_length_le (by simp)]
    intro hmem
    rcases List.mem_map.mp hmem with ⟨x, hx, hsnd⟩
    have hx2 := List.mem_mergeSort.mp hx
    rcases List.mem_cons.mp hx2 with rfl | hx3
    · simp at hsnd
    · rcases List.mem_cons.mp hx3 with rfl | hx4
      · simp at hsnd
      · simp at hx4
  rw [heq] at hmem1
  exact hmem2 hmem1

/-- Length-preserving folds preserve length. -/
theorem foldl_length_inv {β : Type _} (f : Vec → β → Vec)
    (hf : ∀ v b, (f v b).length = v.length) :
    ∀ (l : List β) (v : Vec), (l.foldl f v).length = v.length := by
  intro l
  induction l with
  | nil => intro v; rfl
  | cons b t ih =>
    intro v
    rw [List.foldl_cons, ih, hf]

/-- The accumulated feature vector has the configured dimension. -/
theorem rawVector_length (m : LocalEmbeddingModel) (text : List Char) :
    (rawVector m text).length = m.dimension := by
  have h := foldl_length_inv (fun v g =>
      let bucket := ((m.hash g) % (m.dimension : ℤ)).toNat
      v.set bucket (v.getD bucket 0 +
        ((ngramOccurrences m.ngramMin m.ngramMax
          (text.map Char.toLower)).count g : ℝ)))
    (fun v g => List.length_set v _ _)
    ((ngramOccurrences m.ngramMin m.ngramMax (text.map Char.toLower)).dedup)
    (List.replicate m.dimension 0)
  simp only [rawVector]
  exact h.trans (List.length_replicate _ _)

/-- Entries of the squared list are non-negative. -/
theorem sq_list_nonneg (v : Vec) : ∀ y ∈ v.map (fun x => x * x), 0 ≤ y := by
  intro y hy
  rcases List.mem_map.mp hy with ⟨x, _, rfl⟩
  exact mul_self_nonneg x

/-- The L2 norm vanishes exactly on the all-zero vector. -/
theorem l2_norm_zero_iff (v : Vec) : l2_norm v = 0 ↔ ∀ x ∈ v, x = 0 := by
  have hnon : (0 : ℝ) ≤ (v.map (fun x => x * x)).sum :=
    List.sum_nonneg (sq_list_nonneg v)
  rw [l2_norm, Real.sqrt_eq_zero hnon]
  constructor
  · intro hsum x hx
    have hxx : x * x ≤ (v.map (fun x => x * x)).sum :=
      List.single_le_sum (sq_list_nonneg v) (x * x)
        (List.mem_map_of_mem _ hx)
    have hge : (0 : ℝ) ≤ x * x := mul_self_nonneg x
    have : x * x = 0 := le_antisymm (hsum ▸ hxx) hge
    exact mul_self_eq_zero.mp this
  · intro hall
    apply List.sum_eq_zero
    intro y hy
    rcases List.mem_map.mp hy with ⟨x, hx, rfl⟩
    rw [hall x hx]
    ring

theorem sum_map_mul_const (c : ℝ) : ∀ (l : List ℝ) (f : ℝ → ℝ),
    (l.map (fun x => f x * c)).sum = (l.map f).sum * c := by
  intro l f
  induction l with
  | nil => simp
  | cons x t ih => simp [ih, add_mul]

/-- Dividing a vector of non-zero norm by its norm yields a unit vector. -/
theorem l2_norm_map_div (v : Vec) (hz : l2_norm v ≠ 0) :
    l2_norm (v.map (fun x => x / l2_norm v)) = 1 := by
  have hnon : (0 : ℝ) ≤ (v.map (fun x => x * x)).sum :=
    List.sum_nonneg (sq_list_nonneg v)
  have hnn : l2_norm v * l2_norm v = (v.map (fun x => x * x)).sum := by
    rw [l2_norm]
    exact Real.mul_self_sqrt hnon
  rw [l2_norm, List.map_map]
  have hmap : v.map ((fun x => x * x) ∘ fun x => x / l2_norm v) =
      v.map (fun x => (x * x) * (l2_norm v * l2_norm v)⁻¹) := by
    apply List.map_congr_left
    intro x _
    simp only [Function.comp]
    rw [div_mul_div_comm, div_eq_mul_inv]
  rw [hmap, sum_map_mul_const, ← hnn,
    mul_inv_cancel₀ (mul_ne_zero hz hz)]
  exact Real.sqrt_one

/-- C2.  For every input text, `embed` returns a vector of exactly the
configured dimension whose L2 norm is 1, except when the accumulated
feature vector is all-zero (for instance when no n-grams can be
extracted), in which case the zero vector of the configured dimension is
returned unchanged — no division by zero occurs. -/
theorem embed_normalised_or_zero (m : LocalEmbeddingModel) (text : List Char)
    (hdim : 0 < m.dimension) :
    (m.embed text).length = m.dimension ∧
    (l2_norm (m.embed text) = 1 ∨
      m.embed text = List.replicate m.dimension 0) ∧
    (l2_norm (rawVector m text) = 0 → m.embed text = rawVector m text) := by
  have hlen : (rawVector m text).length = m.dimension := rawVector_length m text
  refine ⟨?_, ?_, ?_⟩
  · rw [LocalEmbeddingModel.embed, normalise]
    split
    · exact hlen
    · simp [hlen]
  · by_cases hz : l2_norm (rawVector m text) = 0
    · right
      rw [LocalEmbeddingModel.embed, normalise, if_pos hz]
      have hall : ∀ x ∈ rawVector m text, x = 0 :=
        (l2_norm_zero_iff _).mp hz
      exact List.eq_replicate_iff.mpr ⟨hlen, hall⟩
    · left
      rw [LocalEmbeddingModel.embed, normalise, if_neg hz]
      exact l2_norm_map_div _ hz
  · intro hz
    rw [LocalEmbeddingModel.embed, normalise, if_pos hz]

/-- Concrete embedding model, used as a concrete input below. -/
def charModel : LocalEmbeddingModel :=
  { dimension := 2, ngramMin := 2, ngramMax := 4, hash := fun _ => 0 }

theorem embed_normalised_or_zero_witness :
    0 < charModel.dimension ∧
    ((charModel.embed []).length = charModel.dimension ∧
      (l2_norm (charModel.embed []) = 1 ∨
        charModel.embed [] = List.replicate charModel.dimension 0) ∧
      (l2_norm (rawVector charModel []) = 0 →
        charModel.embed [] = rawVector charModel [])) :=
  ⟨by simp [charModel],
    embed_normalised_or_zero charModel [] (by simp [charModel])⟩

theorem kmeansStep_length (d : ℤ) (data : List Vec) (c : List Vec) :
    (kmeansStep d data c).length = c.length := by
  simp [kmeansStep]

theorem iterate_kmeans_length (d : ℤ) (data : List Vec) (n : ℕ) :
    ∀ c : List Vec, ((kmeansStep d data)^[n] c).length = c.length := by
  induction n with
  | zero => intro c; rfl
  | succ n ih =>
    intro c
    rw [Function.iterate_succ_apply, ih, kmeansStep_length]

/-- Python's first-maximum scan stays within the index range. -/
theorem argmaxGo_lt : ∀ (l : List ℝ) (i best : ℕ) (bv : ℝ), best < i →
    argmaxGo l i best bv < i + l.length := by
  intro l
  induction l with
  | nil =>
    intro i best bv h
    simpa [argmaxGo] using h
  | cons x t ih =>
    intro i best bv h
    rw [argmaxGo]
    split
    · have hrec := ih (i + 1) i x (Nat.lt_succ_self i)
      simp only [List.length_cons]
      omega
    · have hrec := ih (i + 1) best bv (h.trans (Nat.lt_succ_self i))
      simp only [List.length_cons]
      omega

theorem argmaxIdx_lt (l : List ℝ) (hne : l ≠ []) : argmaxIdx l < l.length := by
  rcases l with _ | ⟨x, t⟩
  · simp at hne
  · have h := argmaxGo_lt t 1 0 x Nat.zero_lt_one
    simpa [argmaxIdx, List.length_cons, Nat.add_comm] using h

/-- The nearest-centroid assignment lands on an existing centroid. -/
theorem assignTo_lt (centroids : List Vec) (v : Vec) (hne : centroids ≠ []) :
    assignTo centroids v < centroids.length := by
  have h := argmaxIdx_lt
    (centroids.map (fun centroid => cosine_similarity v centroid))
    (by simpa using hne)
  simpa [assignTo] using h

/-- Appending one element into a bucket permutes the flattened contents by
a single cons. -/
theorem flatten_set_append (x : IndexedVector) :
    ∀ (ls : List (List IndexedVector)) (b : ℕ), b < ls.length →
      ((ls.set b ((ls.getD b []) ++ [x])).flatten).Perm (x :: ls.flatten) := by
  intro ls
  induction ls with
  | nil => intro b hb; simp at hb
  | cons l rest ih =>
    intro b hb
    rcases b with _ | b
    · simp only [List.set_cons_zero, List.getD_cons_zero, List.flatten_cons,
        List.append_assoc]
      exact List.perm_middle
    · simp only [List.set_cons_succ, List.getD_cons_succ, List.flatten_cons]
      have hlt : b < rest.length := by
        simpa using Nat.lt_of_succ_lt_succ hb
      have hrec := ih b hlt
      refine ((hrec.append_left l)).trans ?_
      exact List.perm_middle

/-- A fully valid batch distributes over the buckets: the flattened buckets
after the loop are a permutation of the old contents plus the batch. -/
theorem IVFIndex.addLoop_flatten :
    ∀ (items : List IndexedVector) (idx : IVFIndex),
      idx.lists.length = idx.centroids.length →
      idx.centroids ≠ [] →
      firstBadIdx idx.dimension items = none →
      (((idx.addLoop items).1).lists.flatten).Perm
        (idx.lists.flatten ++ items) := by
  intro items
  induction items with
  | nil =>
    intro idx _ _ _
    simp [IVFIndex.addLoop]
  | cons item rest ih =>
    intro idx hlen hne hgood
    have hbad : ¬ ((item.vector.length : ℤ) ≠ idx.dimension) := by
      by_contra hb
      simp [firstBadIdx, if_pos hb] at hgood
    have hrest : firstBadIdx idx.dimension rest = none := by
      simp only [firstBadIdx, if_neg hbad] at hgood
      rcases hfind : firstBadIdx idx.dimension rest with _ | m
      · rfl
      · rw [hfind] at hgood; simp at hgood
    simp only [IVFIndex.addLoop, if_neg hbad]
    have hblt : assignTo idx.centroids item.vector < idx.lists.length := by
      rw [hlen]
      exact assignTo_lt idx.centroids item.vector hne
    have h1 := flatten_set_append item idx.lists
      (assignTo idx.centroids item.vector) hblt
    have h2 := ih { idx with
        lists := idx.lists.set (assignTo idx.centroids item.vector)
          ((idx.lists.getD (assignTo idx.centroids item.vector) []) ++ [item]) }
      (by simpa using hlen) hne hrest
    refine h2.trans ?_
    refine ((h1.append_right rest)).trans ?_
    exact List.perm_middle.symm

/-- Gathering every bucket in position order yields the flattened
buckets. -/
theorem flatMap_getD_range (ls : List (List IndexedVector)) :
    (List.range ls.length).flatMap (fun i => ls.getD i []) = ls.flatten := by
  rw [List.flatMap_def, map_getD_range]

/-- Successful training: with enough data of the right dimension and a
valid shuffler, `fit` succeeds, establishes exactly `n_lists` centroids and
resets the buckets to `n_lists` empty lists, leaving every construction
parameter unchanged. -/
theorem IVFIndex.fit_spec (idx : IVFIndex) (data : List Vec)
    (hsh : ValidShuffler idx.shuffle)
    (hdata : idx.n_lists ≤ data.length)
    (hdims : ∀ v ∈ data, (v.length : ℤ) = idx.dimension) :
    ∃ idx1, idx.fit data = .ok idx1 ∧
      idx1.dimension = idx.dimension ∧
      idx1.n_lists = idx.n_lists ∧
      idx1.iterations = idx.iterations ∧
      idx1.shuffle = idx.shuffle ∧
      idx1.uniform = idx.uniform ∧
      idx1.centroids.length = idx.n_lists ∧
      idx1.lists = List.replicate idx.n_lists [] := by
  have hnotlt : ¬ data.length < idx.n_lists := by omega
  have hany : ¬ (data.any
      (fun v => decide ((v.length : ℤ) ≠ idx.dimension)) = true) := by
    simp only [List.any_eq_true, not_exists]
    intro v
    intro hcon
    rcases hcon with ⟨hv, hne⟩
    simp only [decide_eq_true_eq] at hne
    exact hne (hdims v hv)
  have hshlen : (idx.shuffle idx.rngState data.length).1.length
      = data.length := by
    have := (hsh idx.rngState data.length).length_eq
    simpa using this
  have hinitlen : (((idx.shuffle idx.rngState data.length).1.take
      idx.n_lists).map (fun i => data.getD i [])).length = idx.n_lists := by
    simp only [List.length_map, List.length_take, hshlen]
    omega
  have hz : idx.n_lists - (((idx.shuffle idx.rngState data.length).1.take
      idx.n_lists).map (fun i => data.getD i [])).length = 0 := by
    rw [hinitlen]
    omega
  have htrlen : ((kmeansStep idx.dimension data)^[idx.iterations]
      (((idx.shuffle idx.rngState data.length).1.take idx.n_lists).map
        (fun i => data.getD i []))).length = idx.n_lists := by
    rw [iterate_kmeans_length, hinitlen]
  refine ⟨{ idx with
      centroids := (kmeansStep idx.dimension data)^[idx.iterations]
        (((idx.shuffle idx.rngState data.length).1.take idx.n_lists).map
          (fun i => data.getD i []))
      lists := List.replicate ((kmeansStep idx.dimension data)^[idx.iterations]
        (((idx.shuffle idx.rngState data.length).1.take idx.n_lists).map
          (fun i => data.getD i []))).length []
      rngState := (idx.shuffle idx.rngState data.length).2 },
    ?_, rfl, rfl, rfl, rfl, rfl, htrlen, ?_⟩
  · rw [IVFIndex.fit, if_neg hnotlt]
    rw [if_neg hany]
    simp only [hz, padCentroids]
  · simp only [htrlen]

/-- Probing every bucket: with `n_probe` equal to the number of centroids,
the candidate pool of `IVFIndex.search` is a permutation of the entire
bucket contents, and the result is the sorted, truncated scoring of that
pool. -/
theorem IVFIndex.search_full_probe (idx : IVFIndex) (query : Vec) (k : ℕ)
    (hq : (query.length : ℤ) = idx.dimension)
    (hcne : ¬ idx.centroids.length = 0)
    (hlen : idx.lists.length = idx.centroids.length)
    (np : ℤ) (hnp : np = (idx.centroids.length : ℤ)) :
    ∃ candidates : List IndexedVector,
      candidates.Perm idx.lists.flatten ∧
      idx.search query k (some np) =
        .ok (((candidates.map (scoreOf query)).mergeSort scoreDesc).take k) := by
  have hq2 : ¬ ((query.length : ℤ) ≠ idx.dimension) := by simpa using hq
  have hnpne : ¬ np = 0 := by
    rw [hnp]
    simpa using hcne
  refine ⟨((List.range idx.centroids.length).mergeSort
      (centroidDesc (idx.centroids.map
        (fun c => cosine_similarity query c)))).flatMap
      (fun i => idx.lists.getD i []), ?_, ?_⟩
  · have hperm := List.mergeSort_perm (List.range idx.centroids.length)
      (centroidDesc (idx.centroids.map (fun c => cosine_similarity query c)))
    have hfm := hperm.flatMap_right (fun i => idx.lists.getD i [])
    have hflatmap : (List.range idx.centroids.length).flatMap
        (fun i => idx.lists.getD i []) = idx.lists.flatten := by
      rw [← hlen, flatMap_getD_range]
    rwa [hflatmap] at hfm
  · have hres : resolveNProbe (some np) idx.centroids.length = np := by
      simp [resolveNProbe, hnpne]
    have hpt : pyTake np ((List.range idx.centroids.length).mergeSort
        (centroidDesc (idx.centroids.map
          (fun c => cosine_similarity query c)))) =
        (List.range idx.centroids.length).mergeSort
          (centroidDesc (idx.centroids.map
            (fun c => cosine_similarity query c))) := by
      rw [pyTake, if_pos (by rw [hnp]; exact Int.natCast_nonneg _)]
      rw [hnp, Int.toNat_natCast]
      exact List.take_of_length_le (by simp)
    simp only [IVFIndex.search, if_neg hq2, if_neg hcne, hres, hpt]
    rfl

/-- C5.  After a successful `fit` followed by an `add` of a batch of items
of the configured dimension, a search probing every cluster
(`n_probe = n_lists`) returns exactly the brute-force top-`k` over all
added items by cosine similarity (ties aside): probing every cluster
recovers exact recall. -/
theorem ivf_full_probe_exact (idx0 : IVFIndex) (data : List Vec)
    (items : List IndexedVector) (query : Vec) (k : ℕ)
    (hsh : ValidShuffler idx0.shuffle)
    (hnl : 0 < idx0.n_lists)
    (hdata : idx0.n_lists ≤ data.length)
    (hdims : ∀ v ∈ data, (v.length : ℤ) = idx0.dimension)
    (hitems : firstBadIdx idx0.dimension items = none)
    (hq : (query.length : ℤ) = idx0.dimension)
    (hdist : (items.map
      (fun it => cosine_similarity query it.vector)).Pairwise (· ≠ ·)) :
    ∃ idx1 idx2,
      idx0.fit data = .ok idx1 ∧
      idx1.add items = (idx2, none) ∧
      idx2.search query k (some (idx0.n_lists : ℤ)) =
        .ok (exactTopK query k items) := by
  obtain ⟨idx1, hfit, hdim1, hnl1, _hit1, _hsh1, _hun1, hclen, hlists⟩ :=
    IVFIndex.fit_spec idx0 data hsh hdata hdims
  have hne0 : ¬ idx1.centroids.length = 0 := by omega
  have hne : idx1.centroids ≠ [] := by
    intro hnil
    rw [hnil] at hclen
    simp at hclen
    omega
  have hgood1 : firstBadIdx idx1.dimension items = none := by
    rw [hdim1]; exact hitems
  have herr := (IVFIndex.addLoop_error_spec items idx1).1 hgood1
  have hadd : idx1.add items = ((idx1.addLoop items).1, none) := by
    simp only [IVFIndex.add, if_neg hne0]
    rw [← herr]
  have hframe := IVFIndex.addLoop_frame items idx1
  have hc2 : ((idx1.addLoop items).1).centroids = idx1.centroids := hframe.1
  have hl2len : ((idx1.addLoop items).1).lists.length = idx1.lists.length :=
    hframe.2.1
  have hd2 : ((idx1.addLoop items).1).dimension = idx1.dimension :=
    hframe.2.2
  have hll : idx1.lists.length = idx0.n_lists := by
    rw [hlists]; simp
  have hlen12 : idx1.lists.length = idx1.centroids.length := by omega
  have hflat := IVFIndex.addLoop_flatten items idx1 hlen12 hne hgood1
  have hflat1 : idx1.lists.flatten = [] := by
    rw [hlists]
    exact List.flatten_eq_nil_iff.mpr (fun l hl => List.eq_of_mem_replicate hl)
  rw [hflat1, List.nil_append] at hflat
  refine ⟨idx1, (idx1.addLoop items).1, hfit, hadd, ?_⟩
  have hq2 : ((query.length : ℤ)) = ((idx1.addLoop items).1).dimension := by
    rw [hd2, hdim1]; exact hq
  have hc2ne : ¬ ((idx1.addLoop items).1).centroids.length = 0 := by
    rw [hc2]; exact hne0
  have hl2 : ((idx1.addLoop items).1).lists.length =
      ((idx1.addLoop items).1).centroids.length := by
    rw [hc2]; omega
  have hnpc : (idx0.n_lists : ℤ) =
      (((idx1.addLoop items).1).centroids.length : ℤ) := by
    rw [hc2]
    exact_mod_cast hclen.symm
  obtain ⟨candidates, hcperm, hsearch⟩ :=
    IVFIndex.search_full_probe ((idx1.addLoop items).1) query k hq2 hc2ne hl2
      (idx0.n_lists : ℤ) hnpc
  rw [hsearch]
  have hperm2 : candidates.Perm items := hcperm.trans hflat
  rw [exactTopK]
  have := scored_mergeSort_eq query hperm2 hdist
  rw [this]
  rfl

/-- Untrained one-list index, used as a concrete training input below. -/
noncomputable def trainIdx : IVFIndex :=
  { dimension := 1, n_lists := 1, iterations := 1, shuffle := natShuffler,
    uniform := zeroUniform, rngState := 0, centroids := [], lists := [] }

theorem ivf_full_probe_exact_witness :
    ValidShuffler trainIdx.shuffle ∧
    0 < trainIdx.n_lists ∧
    trainIdx.n_lists ≤ ([[(1 : ℝ)]] : List Vec).length ∧
    (∀ v ∈ ([[(1 : ℝ)]] : List Vec), (v.length : ℤ) = trainIdx.dimension) ∧
    firstBadIdx trainIdx.dimension [⟨[1], [("id", "a")]⟩] = none ∧
    ((([(1 : ℝ)] : Vec).length : ℤ) = trainIdx.dimension) ∧
    (([(⟨[1], [("id", "a")]⟩ : IndexedVector)]).map
      (fun it => cosine_similarity [1] it.vector)).Pairwise (· ≠ ·) ∧
    (∃ idx1 idx2,
      trainIdx.fit [[(1 : ℝ)]] = .ok idx1 ∧
      idx1.add [⟨[1], [("id", "a")]⟩] = (idx2, none) ∧
      idx2.search [1] 2 (some (trainIdx.n_lists : ℤ)) =
        .ok (exactTopK [1] 2 [⟨[1], [("id", "a")]⟩])) :=
  ⟨natShuffler_valid, by simp [trainIdx], by simp [trainIdx],
    by simp [trainIdx], by simp [firstBadIdx, trainIdx], by simp [trainIdx],
    by simp,
    ivf_full_probe_exact trainIdx [[(1 : ℝ)]] [⟨[1], [("id", "a")]⟩] [1] 2
      natShuffler_valid (by simp [trainIdx]) (by simp [trainIdx])
      (by simp [trainIdx]) (by simp [firstBadIdx, trainIdx])
      (by simp [trainIdx]) (by simp)⟩

/-- C7.  Any successful `fit` establishes exactly `n_lists` centroids
positionally paired with exactly `n_lists` buckets; every subsequent `add`
preserves both counts and never modifies any centroid, and a single valid
`add` appends its item exactly to the bucket of its nearest centroid.
(`search` cannot modify the index: the embedding of the source's `search`
returns no state because the method writes no field.) -/
theorem ivf_trained_invariants (idx0 : IVFIndex) (data : List Vec)
    (hsh : ValidShuffler idx0.shuffle)
    (hnl : 0 < idx0.n_lists)
    (hdata : idx0.n_lists ≤ data.length)
    (hdims : ∀ v ∈ data, (v.length : ℤ) = idx0.dimension) :
    ∃ idx1, idx0.fit data = .ok idx1 ∧
      idx1.centroids.length = idx0.n_lists ∧
      idx1.lists.length = idx0.n_lists ∧
      (∀ items : List IndexedVector,
        ((idx1.add items).1).centroids = idx1.centroids ∧
        ((idx1.add items).1).lists.length = idx1.lists.length) ∧
      (∀ item : IndexedVector, (item.vector.length : ℤ) = idx1.dimension →
        ((idx1.add [item]).1).lists =
          idx1.lists.set (assignTo idx1.centroids item.vector)
            ((idx1.lists.getD (assignTo idx1.centroids item.vector) [])
              ++ [item])) := by
  obtain ⟨idx1, hfit, hdim1, hnl1, _hit1, _hsh1, _hun1, hclen, hlists⟩ :=
    IVFIndex.fit_spec idx0 data hsh hdata hdims
  have hne0 : ¬ idx1.centroids.length = 0 := by omega
  refine ⟨idx1, hfit, hclen, by rw [hlists]; simp, ?_, ?_⟩
  · intro items
    have hframe := IVFIndex.addLoop_frame items idx1
    simp only [IVFIndex.add, if_neg hne0]
    exact ⟨hframe.1, hframe.2.1⟩
  · intro item hitem
    have hbad : ¬ ((item.vector.length : ℤ) ≠ idx1.dimension) := by
      simpa using hitem
    simp only [IVFIndex.add, if_neg hne0, IVFIndex.addLoop, if_neg hbad]

theorem ivf_trained_invariants_witness :
    ValidShuffler trainIdx.shuffle ∧
    0 < trainIdx.n_lists ∧
    trainIdx.n_lists ≤ ([[(1 : ℝ)]] : List Vec).length ∧
    (∀ v ∈ ([[(1 : ℝ)]] : List Vec), (v.length : ℤ) = trainIdx.dimension) ∧
    (∃ idx1, trainIdx.fit [[(1 : ℝ)]] = .ok idx1 ∧
      idx1.centroids.length = trainIdx.n_lists ∧
      idx1.lists.length = trainIdx.n_lists ∧
      (∀ items : List IndexedVector,
        ((idx1.add items).1).centroids = idx1.centroids ∧
        ((idx1.add items).1).lists.length = idx1.lists.length) ∧
      (∀ item : IndexedVector, (item.vector.length : ℤ) = idx1.dimension →
        ((idx1.add [item]).1).lists =
          idx1.lists.set (assignTo idx1.centroids item.vector)
            ((idx1.lists.getD (assignTo idx1.centroids item.vector) [])
              ++ [item]))) :=
  ⟨natShuffler_valid, by simp [trainIdx], by simp [trainIdx],
    by simp [trainIdx],
    ivf_trained_invariants trainIdx [[(1 : ℝ)]] natShuffler_valid
      (by simp [trainIdx]) (by simp [trainIdx]) (by simp [trainIdx])⟩

end RagCore
